import Mathlib

/-!
Verification of `train.py` from the grefenstette-stack-lstm repository.

The file shallowly embeds the training / evaluation driver (`train.py`).
Symbols are natural numbers.  The neural model itself (`StackLSTMBuilder`
from `stack_lstm.py`) is opaque to the driver: `train.py` only calls
`initial_state`, `state.next`, `state.output` and the two mode constants,
so the embedding is parametric in an abstract model.  Constants and small
helpers that live in the repository's `stack_lstm.py` / `util.py` modules
(absent from the sources available here) are modelled from the spec and
marked as such in their doc comments.
-/

namespace StackLstm

/-- Modelled from the spec: the reserved control symbol START.  Defined in
the repository's `stack_lstm.py` (not among the available sources); the
spec fixes three reserved symbols with indices 0-2 before the ordinary
symbols, which start at index 3. -/
def START_SYMBOL : ℕ := 0

/-- Modelled from the spec: the reserved control symbol SEPARATOR, the
second of the three reserved symbols of `stack_lstm.py`. -/
def SEPARATOR_SYMBOL : ℕ := 1

/-- Modelled from the spec: the reserved control symbol END, the third of
the three reserved symbols of `stack_lstm.py`. -/
def END_SYMBOL : ℕ := 2

/-- Modelled from the spec: `input_symbol_to_index` from `stack_lstm.py`
(not among the available sources).  The input-side vocabulary is the three
reserved symbols together with the ordinary symbols; symbols are already
dense integers `0,1,2,3,...`, so the bijection onto input indices is the
identity. -/
def input_symbol_to_index (s : ℕ) : ℕ := s

/-- Modelled from the spec: `output_symbol_to_index` from `stack_lstm.py`
(not among the available sources).  The output-side vocabulary is the
ordinary symbols together with END (no START/SEPARATOR), each mapped
bijectively to a dense index: END gets index 0 and the ordinary symbol
`3 + i` gets index `1 + i`. -/
def output_symbol_to_index (s : ℕ) : ℕ :=
  if s = END_SYMBOL then 0 else s - 2

/-- Modelled from the spec: `output_index_to_symbol` from `stack_lstm.py`
(not among the available sources); inverse of `output_symbol_to_index`. -/
def output_index_to_symbol (i : ℕ) : ℕ :=
  if i = 0 then END_SYMBOL else i + 2

/-- `Sequence` from `train.py`: a wrapper around an ordered list of
ordinary source symbols. -/
structure Sequence where
  source_sequence : List ℕ
deriving DecidableEq, Repr

namespace Sequence

/-- `Sequence.input_sequence` from `train.py`: yields START, then the
source symbols in order, then SEPARATOR. -/
def input_sequence (s : Sequence) : List ℕ :=
  START_SYMBOL :: (s.source_sequence ++ [SEPARATOR_SYMBOL])

/-- `Sequence.output_sequence` from `train.py`: yields the source symbols
in reverse order, then END. -/
def output_sequence (s : Sequence) : List ℕ :=
  s.source_sequence.reverse ++ [END_SYMBOL]

/-- `Sequence.output_sequence_length` from `train.py`:
`len(source_sequence) + 1`. -/
def output_sequence_length (s : Sequence) : ℕ :=
  s.source_sequence.length + 1

end Sequence

/-- The step mode of `StackLSTMBuilder`: `INPUT_MODE` consumes source
symbols, `OUTPUT_MODE` produces target symbols (`train.py` only ever
passes one of these two constants). -/
inductive Mode where
  | input
  | output
deriving DecidableEq, Repr

/-- The interface of `StackLSTMBuilder` as used by `train.py`: the driver
only calls `builder.initial_state(batch_size)`, `state.next(index_batch,
mode)` and `state.output()`.  `output` returns, per batch element, the
logits over the output vocabulary (rationals stand in for the framework's
reals). -/
structure Model (σ : Type) where
  initial_state : ℕ → σ
  next : σ → List ℕ → Mode → σ
  output : σ → List (List ℚ)

/-- Modelled from the spec: `argmax` from `util.py` (not among the
available sources); returns the index of the (first) maximum entry,
selecting "the single highest-probability symbol". -/
def argmaxAux : ℕ → ℕ → ℚ → List ℚ → ℕ
  | _, best, _, [] => best
  | i, best, bestVal, x :: xs =>
      if bestVal < x then argmaxAux (i + 1) i x xs
      else argmaxAux (i + 1) best bestVal xs

/-- Modelled from the spec: `argmax` from `util.py`, entry point. -/
def argmax : List ℚ → ℕ
  | [] => 0
  | x :: xs => argmaxAux 1 0 x xs

/-- `.value()` of a batch-size-1 expression: the first (only) batch
element's value. -/
def value1 (vs : List (List ℚ)) : List ℚ := vs.getD 0 []

variable {σ : Type}

/-- The INPUT_MODE phase shared by `train` and `test`: fold the input
sequence through the model, ignoring outputs (`train.py` lines 61-63 and
98-100, here for batch size 1). -/
def feed_input (m : Model σ) (st : σ) (s : Sequence) : σ :=
  s.input_sequence.foldl
    (fun st sym => m.next st [input_symbol_to_index sym] Mode.input) st

/-- The OUTPUT_MODE loop of `test` (`train.py` lines 103-110): decode the
argmax output index, compare with the true next target symbol; on a match
count it and feed the predicted index forward, on a mismatch break.
Returns `fine_correct`. -/
def test_output_loop (m : Model σ) : σ → List ℕ → ℕ
  | _, [] => 0
  | st, correct_symbol :: rest =>
      let predicted_index := argmax (value1 (m.output st))
      let predicted_symbol := output_index_to_symbol predicted_index
      if predicted_symbol = correct_symbol then
        1 + test_output_loop m (m.next st [predicted_index] Mode.output) rest
      else 0

/-- One evaluation trial of `test` on a given sequence: feed the input
sequence, then run the greedy output loop; returns `fine_correct`. -/
def test_trial (m : Model σ) (s : Sequence) : ℕ :=
  test_output_loop m (feed_input m (m.initial_state 1) s) s.output_sequence

/-- The accumulators of `test` over a list of trials:
`(total_fine_correct, total_coarse_correct)` (`train.py` lines 86-113).
The sampled sequences are passed explicitly in place of the random draws. -/
def test_totals (m : Model σ) (trials : List Sequence) : ℚ × ℕ :=
  trials.foldl
    (fun acc s =>
      let fine_correct := test_trial m s
      let fine_total := s.output_sequence_length
      (acc.1 + (fine_correct : ℚ) / (fine_total : ℚ),
       acc.2 + if fine_correct = fine_total then 1 else 0))
    (0, 0)

/-- `fine_accuracy` as reported by `test` (`train.py` line 114), with
`test_data_size = trials.length`. -/
def fine_accuracy (m : Model σ) (trials : List Sequence) : ℚ :=
  (test_totals m trials).1 / (trials.length : ℚ)

/-- `coarse_accuracy` as reported by `test` (`train.py` line 115). -/
def coarse_accuracy (m : Model σ) (trials : List Sequence) : ℚ :=
  ((test_totals m trials).2 : ℚ) / (trials.length : ℚ)

/-- The pure autoregressive greedy decode of `n` symbols: at each step
take the argmax of the current output logits and feed that predicted
index forward, unconditionally.  Used to characterise the evaluation
loop. -/
def greedy_decode (m : Model σ) : σ → ℕ → List ℕ
  | _, 0 => []
  | st, n + 1 =>
      let predicted_index := argmax (value1 (m.output st))
      output_index_to_symbol predicted_index ::
        greedy_decode m (m.next st [predicted_index] Mode.output) n

/-- Length of the longest common prefix of two lists. -/
def matching_prefix_length : List ℕ → List ℕ → ℕ
  | a :: as, b :: bs =>
      if a = b then 1 + matching_prefix_length as bs else 0
  | _, _ => 0

variable {σ : Type}

/-- `dynet.pickneglogsoftmax_batch`: per batch element, the negative
log-likelihood of the given index under the softmax of that element's
logits.  The scalar function `nll` is kept abstract (it is the external
framework's numeric routine); the batched operation applies it pointwise
to (logits, index) pairs. -/
def pickneglogsoftmax_batch (nll : List ℚ → ℕ → ℚ)
    (outputs : List (List ℚ)) (index_batch : List ℕ) : List ℚ :=
  List.zipWith nll outputs index_batch

/-- `dynet.esum`: elementwise sum of a list of batched scalars. -/
def esum : List (List ℚ) → List ℚ
  | [] => []
  | [v] => v
  | v :: vs => List.zipWith (· + ·) v (esum vs)

/-- `dynet.sum_batches`: sum of a batched scalar over the batch. -/
def sum_batches (v : List ℚ) : ℚ := v.sum

/-- The INPUT_MODE loop of `train` (`train.py` lines 61-63): feed each
transposed input symbol batch through the model, ignoring outputs. -/
def train_input_loop (m : Model σ) (st : σ)
    (input_sequence_batch : List (List ℕ)) : σ :=
  input_sequence_batch.foldl
    (fun st symbol_batch =>
      m.next st (symbol_batch.map input_symbol_to_index) Mode.input) st

/-- The OUTPUT_MODE loop of `train` (`train.py` lines 66-71): for each
transposed output symbol batch, convert it to output indices, take the
batched negative log-likelihood of those indices at the current output,
and feed those same indices forward.  Returns the final state and the
list of per-step batched losses. -/
def train_output_loop (m : Model σ) (nll : List ℚ → ℕ → ℚ) :
    σ → List (List ℕ) → σ × List (List ℚ)
  | st, [] => (st, [])
  | st, symbol_batch :: rest =>
      let index_batch := symbol_batch.map output_symbol_to_index
      let symbol_loss := pickneglogsoftmax_batch nll (m.output st) index_batch
      let r := train_output_loop m nll (m.next st index_batch Mode.output) rest
      (r.1, symbol_loss :: r.2)

/-- The teacher-forced state trajectory, defined independently of the
loss computation: fold the model's `next` over the true target index
batches only (never over any prediction). -/
def teacher_forced_state (m : Model σ) (st : σ)
    (targets : List (List ℕ)) : σ :=
  targets.foldl
    (fun st symbol_batch =>
      m.next st (symbol_batch.map output_symbol_to_index) Mode.output) st

/-- `loss` of one training batch (`train.py` line 72 evaluated at line
74): the batch-summed elementwise sum of the per-step losses. -/
def batch_loss (m : Model σ) (nll : List ℚ → ℕ → ℚ) (B : ℕ)
    (input_sequence_batch output_sequence_batch : List (List ℕ)) : ℚ :=
  sum_batches (esum
    (train_output_loop m nll
      (train_input_loop m (m.initial_state B) input_sequence_batch)
      output_sequence_batch).2)

/-- `batch_group_loss` accumulated over one iteration group (`train.py`
lines 45-75); the group's sampled-and-transposed batches are passed
explicitly. -/
def batch_group_loss (m : Model σ) (nll : List ℚ → ℕ → ℚ) (B : ℕ)
    (batches : List (List (List ℕ) × List (List ℕ))) : ℚ :=
  batches.foldl (fun acc b => acc + batch_loss m nll B b.1 b.2) 0

/-- `avg_loss` as reported for one iteration group (`train.py` line 80),
with `batch_size = B` and `batch_group_size = batches.length`. -/
def average_loss (m : Model σ) (nll : List ℚ → ℕ → ℚ) (B : ℕ)
    (batches : List (List (List ℕ) × List (List ℕ))) : ℚ :=
  batch_group_loss m nll B batches / ((B : ℚ) * (batches.length : ℚ))

/-- A tiny concrete model (batch size 2, constant logits) used to
instantiate theorems whose statements carry hypotheses. -/
def demoModel : Model ℕ where
  initial_state := fun _ => 0
  next := fun st _ _ => st + 1
  output := fun _ => [[1, 0], [0, 1]]

/-- A concrete stand-in for the framework's negative-log-softmax scalar,
constantly 1 (in particular non-negative). -/
def demoNll : List ℚ → ℕ → ℚ := fun _ _ => 1

/-- A finitely-supported weighted distribution: the shallow embedding of
Python's `random` draws as they are consumed by `train.py`.  Each entry
pairs an outcome with its probability weight. -/
abbrev Dist (α : Type) : Type := List (α × ℚ)

namespace Dist

/-- The deterministic distribution. -/
def pure {α : Type} (a : α) : Dist α := [(a, 1)]

/-- Sequencing of random draws: weights multiply along each path. -/
def bind {α β : Type} : Dist α → (α → Dist β) → Dist β
  | [], _ => []
  | (a, p) :: rest, f =>
      ((f a).map (fun bq => (bq.1, p * bq.2))) ++ bind rest f

/-- The outcomes a distribution can produce. -/
def support {α : Type} (d : Dist α) : List α := d.map Prod.fst

/-- Probability of an event (total weight of the outcomes satisfying
it). -/
def prob {α : Type} (d : Dist α) (p : α → Bool) : ℚ :=
  ((d.filter (fun x => p x.1)).map Prod.snd).sum

end Dist

/-- The uniform distribution over a list of outcomes. -/
def uniform {α : Type} (xs : List α) : Dist α :=
  xs.map (fun a => (a, 1 / (xs.length : ℚ)))

/-- Python's `random.randint(lo, hi)`: uniform over `lo..hi`, both ends
included. -/
def randint (lo hi : ℕ) : Dist ℕ := uniform (List.range' lo (hi + 1 - lo))

/-- Python's `random.randrange(n)`: uniform over `0..n-1`. -/
def randrange (n : ℕ) : Dist ℕ := uniform (List.range n)

/-- The symbol draws of `random_sequence` (`train.py` lines 12-13):
`length` independent draws of `3 + randrange(alphabet_size)`, in order. -/
def random_symbols : ℕ → ℕ → Dist (List ℕ)
  | 0, _ => Dist.pure []
  | n + 1, K =>
      Dist.bind (randrange K) (fun c =>
        Dist.bind (random_symbols n K) (fun rest =>
          Dist.pure ((3 + c) :: rest)))

/-- `random_sequence` from `train.py`: wrap the drawn symbol list in a
`Sequence`. -/
def random_sequence (length K : ℕ) : Dist Sequence :=
  Dist.bind (random_symbols length K) (fun l => Dist.pure (Sequence.mk l))

/-- `n` independent draws from the same distribution, collected in
order. -/
def replicateD {α : Type} : ℕ → Dist α → Dist (List α)
  | 0, _ => Dist.pure []
  | n + 1, d =>
      Dist.bind d (fun x =>
        Dist.bind (replicateD n d) (fun xs => Dist.pure (x :: xs)))

/-- The batch sampling of `train` (`train.py` lines 48-51): draw one
`length` with `randint(*training_length_range)`, then `batch_size`
sequences of that one length. -/
def sample_batch (lo hi K B : ℕ) : Dist (List Sequence) :=
  Dist.bind (randint lo hi) (fun length => replicateD B (random_sequence length K))

/-- Modelled from the spec: helper for `transpose` from `util.py` (not
among the available sources) — the length of the shortest row, i.e. how
many columns `zip` produces. -/
def minRowLength : List (List ℕ) → ℕ
  | [] => 0
  | [xs] => xs.length
  | xs :: rest => min xs.length (minRowLength rest)

/-- Modelled from the spec: `transpose` from `util.py` (not among the
available sources), with `zip(*rows)` semantics — the `i`-th output row
collects the `i`-th entry of every input row, truncating at the shortest
input row. -/
def transpose (xss : List (List ℕ)) : List (List ℕ) :=
  (List.range (minRowLength xss)).map (fun i => xss.map (fun xs => xs.getD i 0))

/-- Modelled from the spec: the inner batch loop of `train` (`train.py`
lines 46-79) over the per-batch loss values, with the framework's float
modelled as `Option ℚ` (`none` stands for a non-finite NaN/inf value).
The spec fixes the external framework's contract that a non-finite loss
"propagates and aborts the run" via the backward/update step (that raise
happens inside the framework, outside the available sources); `train.py`
itself installs no exception handling, so the failure of batch `k` ends
the loop.  Returns the accumulated `batch_group_loss`, or the index of
the aborting batch. -/
def run_training_batches : ℕ → ℚ → List (Option ℚ) → Except ℕ ℚ
  | _, acc, [] => Except.ok acc
  | k, acc, loss_value :: rest =>
      match loss_value with
      | none => Except.error k
      | some q => run_training_batches (k + 1) (acc + q) rest

/-- A phase of `main` observable from the outside. -/
inductive RunEvent where
  | trained
  | saved (path : String)
  | tested
deriving DecidableEq, Repr

/-- `main` after argument parsing (`train.py` lines 159-163): run
training, then — only when an output path is configured — save the
parameters, then run evaluation.  `params.save` is fallible (it raises on
an unwritable path); `main` installs no exception handling, so a save
error propagates and ends the run before `test` is reached.  Returns the
trace of completed phases together with the propagated error, if any. -/
def main_run (output : Option String) (save : String → Except String Unit) :
    List RunEvent × Option String :=
  match output with
  | none => ([RunEvent.trained, RunEvent.tested], none)
  | some path =>
      match save path with
      | Except.ok _ =>
          ([RunEvent.trained, RunEvent.saved path, RunEvent.tested], none)
      | Except.error e => ([RunEvent.trained], some e)

/-- A save operation that always succeeds. -/
def demoSaveOk : String → Except String Unit := fun _ => Except.ok ()

/-- A save operation that always fails (unwritable path). -/
def demoSaveBad : String → Except String Unit :=
  fun _ => Except.error "unwritable"

theorem test_output_loop_eq_match_len (m : Model σ) :
    ∀ (targets : List ℕ) (st : σ),
      test_output_loop m st targets =
        matching_prefix_length (greedy_decode m st targets.length) targets := by
  intro targets
  induction targets with
  | nil => intro st; rfl
  | cons c rest ih =>
      intro st
      simp only [test_output_loop, greedy_decode, List.length_cons,
        matching_prefix_length]
      by_cases h : output_index_to_symbol (argmax (value1 (m.output st))) = c
      · simp [h, ih]
      · simp [h]

theorem matching_prefix_length_le (xs ys : List ℕ) :
    matching_prefix_length xs ys ≤ ys.length := by
  induction xs generalizing ys with
  | nil => cases ys <;> simp [matching_prefix_length]
  | cons a as ih =>
      cases ys with
      | nil => simp [matching_prefix_length]
      | cons b bs =>
          simp only [matching_prefix_length, List.length_cons]
          by_cases h : a = b
          · rw [if_pos h]
            have := ih bs
            omega
          · rw [if_neg h]
            omega

theorem matching_prefix_length_eq_length_iff (xs ys : List ℕ)
    (h : xs.length = ys.length) :
    matching_prefix_length xs ys = ys.length ↔ xs = ys := by
  induction xs generalizing ys with
  | nil =>
      cases ys with
      | nil => simp [matching_prefix_length]
      | cons b bs => simp at h
  | cons a as ih =>
      cases ys with
      | nil => simp at h
      | cons b bs =>
          simp only [List.length_cons] at h
          have h' : as.length = bs.length := by omega
          simp only [matching_prefix_length, List.length_cons]
          by_cases hab : a = b
          · rw [if_pos hab]
            have hiff := ih bs h'
            constructor
            · intro he
              have : matching_prefix_length as bs = bs.length := by omega
              simp [hab, hiff.mp this]
            · intro he
              have hasbs : as = bs := (List.cons.injEq .. ▸ he).2
              rw [hiff.mpr hasbs]
              omega
          · rw [if_neg hab]
            constructor
            · intro he
              have := matching_prefix_length_le as bs
              omega
            · intro he
              exact absurd (List.cons.injEq .. ▸ he).1 hab

theorem greedy_decode_length (m : Model σ) :
    ∀ (n : ℕ) (st : σ), (greedy_decode m st n).length = n := by
  intro n
  induction n with
  | zero => intro st; rfl
  | succ k ih => intro st; simp [greedy_decode, ih]

theorem output_sequence_len (s : Sequence) :
    s.output_sequence.length = s.source_sequence.length + 1 := by
  simp [Sequence.output_sequence]

theorem foldl_pair_sum (f : Sequence → ℚ) (g : Sequence → ℕ) :
    ∀ (l : List Sequence) (a : ℚ) (b : ℕ),
      l.foldl (fun acc s => (acc.1 + f s, acc.2 + g s)) (a, b) =
        (a + (l.map f).sum, b + (l.map g).sum) := by
  intro l
  induction l with
  | nil => intro a b; simp
  | cons s rest ih =>
      intro a b
      simp only [List.foldl_cons, List.map_cons, List.sum_cons, ih]
      simp [add_assoc]

/-- C1: in each evaluation trial, the output loop is exactly greedy
autoregressive decoding cut off at the first mismatch: at every position
the predicted symbol is the argmax of `state.output()`, it is compared to
the true next target symbol, on a match the model's own predicted index
is fed forward as the next input (this is what `greedy_decode`, defined
independently of the loop, does), and `fine_correct` equals the length of
the matching prefix of the greedy decode against the true output
sequence — so computation stops at the first mismatch and later positions
contribute nothing. -/
theorem test_trial_is_cutoff_greedy_decoding {σ : Type} (m : Model σ)
    (s : Sequence) :
    test_trial m s =
      matching_prefix_length
        (greedy_decode m (feed_input m (m.initial_state 1) s)
          s.output_sequence.length)
        s.output_sequence ∧
    test_trial m s ≤ s.output_sequence_length := by
  constructor
  · exact test_output_loop_eq_match_len m s.output_sequence _
  · rw [test_trial, test_output_loop_eq_match_len m s.output_sequence]
    have h1 := matching_prefix_length_le
      (greedy_decode m (feed_input m (m.initial_state 1) s)
        s.output_sequence.length) s.output_sequence
    have h2 : s.output_sequence_length = s.output_sequence.length := by
      rw [Sequence.output_sequence_length, output_sequence_len]
    rw [h2]
    exact h1

/-- C2: over any list of evaluation trials (`test_data_size =
trials.length`), the reported fine accuracy is the mean over trials of
`fine_correct / (L + 1)` where `L` is the trial's source length, the
reported coarse accuracy is the mean of the per-trial indicators
`fine_correct = L + 1`, and that indicator is 1 exactly when all `L + 1`
output positions are decoded correctly (the greedy decode equals the true
output sequence). -/
theorem test_accuracy_spec {σ : Type} (m : Model σ) (trials : List Sequence) :
    fine_accuracy m trials =
      (trials.map (fun s =>
        (test_trial m s : ℚ) / ((s.source_sequence.length + 1 : ℕ) : ℚ))).sum /
        (trials.length : ℚ) ∧
    coarse_accuracy m trials =
      (((trials.map (fun s =>
        if test_trial m s = s.source_sequence.length + 1 then 1 else 0)).sum : ℕ) : ℚ) /
        (trials.length : ℚ) ∧
    ∀ s : Sequence,
      (test_trial m s = s.source_sequence.length + 1 ↔
        greedy_decode m (feed_input m (m.initial_state 1) s)
          (s.source_sequence.length + 1) = s.output_sequence) := by
  have htot : test_totals m trials =
      ((trials.map (fun s =>
        (test_trial m s : ℚ) / ((s.source_sequence.length + 1 : ℕ) : ℚ))).sum,
       (trials.map (fun s =>
        if test_trial m s = s.source_sequence.length + 1 then 1 else 0)).sum) := by
    show trials.foldl _ (0, 0) = _
    have := foldl_pair_sum
      (fun s => (test_trial m s : ℚ) / ((s.source_sequence.length + 1 : ℕ) : ℚ))
      (fun s => if test_trial m s = s.source_sequence.length + 1 then 1 else 0)
      trials 0 0
    simpa [test_totals, Sequence.output_sequence_length] using this
  refine ⟨?_, ?_, ?_⟩
  · rw [fine_accuracy, htot]
  · rw [coarse_accuracy, htot]
  · intro s
    have hlen2 : s.output_sequence.length = s.source_sequence.length + 1 :=
      output_sequence_len s
    have key : test_trial m s =
        matching_prefix_length
          (greedy_decode m (feed_input m (m.initial_state 1) s)
            (s.source_sequence.length + 1)) s.output_sequence := by
      rw [test_trial, test_output_loop_eq_match_len m s.output_sequence,
        hlen2]
    have hlen : (greedy_decode m (feed_input m (m.initial_state 1) s)
        (s.source_sequence.length + 1)).length = s.output_sequence.length := by
      rw [greedy_decode_length, hlen2]
    have hiff := matching_prefix_length_eq_length_iff
      (greedy_decode m (feed_input m (m.initial_state 1) s)
        (s.source_sequence.length + 1)) s.output_sequence hlen
    rw [hlen2] at hiff
    rw [key]
    exact hiff

theorem train_output_loop_state (m : Model σ) (nll : List ℚ → ℕ → ℚ) :
    ∀ (targets : List (List ℕ)) (st : σ),
      (train_output_loop m nll st targets).1 = teacher_forced_state m st targets := by
  intro targets
  induction targets with
  | nil => intro st; rfl
  | cons tb rest ih =>
      intro st
      simp only [train_output_loop, teacher_forced_state, List.foldl_cons]
      exact ih _

theorem train_output_loop_losses (m : Model σ) (nll : List ℚ → ℕ → ℚ) :
    ∀ (targets : List (List ℕ)) (st : σ),
      (train_output_loop m nll st targets).2 =
        (List.range targets.length).map (fun k =>
          pickneglogsoftmax_batch nll
            (m.output (teacher_forced_state m st (targets.take k)))
            ((targets.getD k []).map output_symbol_to_index)) := by
  intro targets
  induction targets with
  | nil => intro st; rfl
  | cons tb rest ih =>
      intro st
      simp only [train_output_loop, List.length_cons, List.range_succ_eq_map,
        List.map_cons, List.map_map]
      congr 1
      rw [ih]
      apply List.map_congr_left
      intro k _
      simp [Function.comp, teacher_forced_state]

theorem zipWith_add_sum :
    ∀ (a b : List ℚ), a.length = b.length →
      (List.zipWith (· + ·) a b).sum = a.sum + b.sum := by
  intro a
  induction a with
  | nil =>
      intro b h
      cases b with
      | nil => simp
      | cons y ys => simp at h
  | cons x xs ih =>
      intro b h
      cases b with
      | nil => simp at h
      | cons y ys =>
          simp only [List.zipWith_cons_cons, List.sum_cons]
          rw [ih ys (by simpa using h)]
          ring

theorem esum_length :
    ∀ (vs : List (List ℚ)) (n : ℕ), (∀ v ∈ vs, v.length = n) → vs ≠ [] →
      (esum vs).length = n := by
  intro vs
  induction vs with
  | nil => intro n _ hne; exact absurd rfl hne
  | cons v rest ih =>
      intro n hall _
      cases rest with
      | nil => exact hall v (by simp)
      | cons w ws =>
          show (List.zipWith (· + ·) v (esum (w :: ws))).length = n
          rw [List.length_zipWith,
            ih n (fun u hu => hall u (List.mem_cons_of_mem v hu)) (by simp),
            hall v (by simp), min_self]

theorem esum_sum_eq (n : ℕ) :
    ∀ (vs : List (List ℚ)), (∀ v ∈ vs, v.length = n) →
      (esum vs).sum = (vs.map List.sum).sum := by
  intro vs
  induction vs with
  | nil => intro _; simp [esum]
  | cons v rest ih =>
      intro hall
      cases rest with
      | nil => simp [esum]
      | cons w ws =>
          show (List.zipWith (· + ·) v (esum (w :: ws))).sum = _
          rw [zipWith_add_sum v (esum (w :: ws))
              (by rw [hall v (by simp),
                    esum_length (w :: ws) n
                      (fun u hu => hall u (List.mem_cons_of_mem v hu)) (by simp)]),
            ih (fun u hu => hall u (List.mem_cons_of_mem v hu))]
          simp

theorem mem_zipWith_nonneg (f : List ℚ → ℕ → ℚ) (hf : ∀ p q, 0 ≤ f p q) :
    ∀ (a : List (List ℚ)) (b : List ℕ), ∀ x ∈ List.zipWith f a b, 0 ≤ x := by
  intro a
  induction a with
  | nil => intro b x hx; simp at hx
  | cons v vs ih =>
      intro b x hx
      cases b with
      | nil => simp at hx
      | cons i is =>
          simp only [List.zipWith_cons_cons, List.mem_cons] at hx
          rcases hx with h | h
          · rw [h]; exact hf v i
          · exact ih is x h

theorem mem_zipWith_add_nonneg :
    ∀ (a b : List ℚ), (∀ x ∈ a, 0 ≤ x) → (∀ x ∈ b, 0 ≤ x) →
      ∀ x ∈ List.zipWith (· + ·) a b, 0 ≤ x := by
  intro a
  induction a with
  | nil => intro b _ _ x hx; simp at hx
  | cons u us ih =>
      intro b ha hb x hx
      cases b with
      | nil => simp at hx
      | cons w ws =>
          simp only [List.zipWith_cons_cons, List.mem_cons] at hx
          rcases hx with h | h
          · rw [h]
            exact add_nonneg (ha u (by simp)) (hb w (by simp))
          · exact ih ws (fun y hy => ha y (List.mem_cons_of_mem u hy))
              (fun y hy => hb y (List.mem_cons_of_mem w hy)) x h

theorem esum_nonneg :
    ∀ (vs : List (List ℚ)), (∀ v ∈ vs, ∀ x ∈ v, 0 ≤ x) →
      ∀ x ∈ esum vs, 0 ≤ x := by
  intro vs
  induction vs with
  | nil => intro _ x hx; simp [esum] at hx
  | cons v rest ih =>
      intro hall x hx
      cases rest with
      | nil => exact hall v (by simp) x hx
      | cons w ws =>
          have hx' : x ∈ List.zipWith (· + ·) v (esum (w :: ws)) := hx
          exact mem_zipWith_add_nonneg v (esum (w :: ws))
            (hall v (by simp))
            (ih (fun u hu => hall u (List.mem_cons_of_mem v hu)))
            x hx'

theorem batch_loss_nonneg (m : Model σ) (nll : List ℚ → ℕ → ℚ)
    (hnll : ∀ v i, 0 ≤ nll v i) (B : ℕ)
    (inp out : List (List ℕ)) : 0 ≤ batch_loss m nll B inp out := by
  rw [batch_loss, sum_batches]
  apply List.sum_nonneg
  apply esum_nonneg
  intro v hv x hx
  rw [train_output_loop_losses] at hv
  rcases List.mem_map.mp hv with ⟨k, _, hk⟩
  rw [← hk] at hx
  exact mem_zipWith_nonneg nll hnll _ _ x hx

theorem foldl_add_sum {α : Type} (f : α → ℚ) :
    ∀ (l : List α) (a : ℚ),
      l.foldl (fun acc x => acc + f x) a = a + (l.map f).sum := by
  intro l
  induction l with
  | nil => intro a; simp
  | cons x xs ih =>
      intro a
      simp only [List.foldl_cons, List.map_cons, List.sum_cons, ih]
      ring

theorem mem_support_bind {α β : Type} (f : α → Dist β) (b : β) :
    ∀ (d : Dist α), b ∈ Dist.support (Dist.bind d f) →
      ∃ a ∈ Dist.support d, b ∈ Dist.support (f a) := by
  intro d
  induction d with
  | nil => intro h; simp [Dist.bind, Dist.support] at h
  | cons x rest ih =>
      obtain ⟨a, p⟩ := x
      intro h
      simp only [Dist.bind, Dist.support, List.map_append, List.mem_append] at h
      rcases h with h | h
      · refine ⟨a, by simp [Dist.support], ?_⟩
        simpa [Dist.support, List.map_map, Function.comp] using h
      · rcases ih h with ⟨a', ha', hb⟩
        exact ⟨a', by simp [Dist.support] at ha' ⊢; exact Or.inr ha', hb⟩

theorem mem_support_pure {α : Type} (a b : α) :
    b ∈ Dist.support (Dist.pure a) → b = a := by
  intro h
  simpa [Dist.support, Dist.pure] using h

theorem support_uniform {α : Type} (xs : List α) :
    Dist.support (uniform xs) = xs := by
  simp only [Dist.support, uniform, List.map_map]
  have : (Prod.fst ∘ fun a : α => (a, 1 / (xs.length : ℚ))) = id := rfl
  rw [this, List.map_id]

theorem mem_support_randint (lo hi x : ℕ) :
    x ∈ Dist.support (randint lo hi) → lo ≤ x ∧ x ≤ hi := by
  intro h
  rw [randint, support_uniform] at h
  have := List.mem_range'_1.mp h
  omega

theorem mem_support_random_symbols :
    ∀ (n K : ℕ) (l : List ℕ), l ∈ Dist.support (random_symbols n K) →
      l.length = n ∧ ∀ x ∈ l, 3 ≤ x ∧ x < 3 + K := by
  intro n
  induction n with
  | zero =>
      intro K l h
      have := mem_support_pure _ _ h
      subst this
      simp
  | succ k ih =>
      intro K l h
      rcases mem_support_bind _ _ _ h with ⟨c, hc, h2⟩
      rcases mem_support_bind _ _ _ h2 with ⟨rest, hrest, h3⟩
      have hl := mem_support_pure _ _ h3
      have hc' : c < K := by
        rw [randrange, support_uniform] at hc
        exact List.mem_range.mp hc
      rcases ih K rest hrest with ⟨hlen, hall⟩
      subst hl
      refine ⟨by simp [hlen], ?_⟩
      intro x hx
      rcases List.mem_cons.mp hx with h | h
      · omega
      · exact hall x h

theorem mem_support_random_sequence (L K : ℕ) (s : Sequence) :
    s ∈ Dist.support (random_sequence L K) →
      s.source_sequence.length = L ∧
      ∀ x ∈ s.source_sequence, 3 ≤ x ∧ x < 3 + K := by
  intro h
  rcases mem_support_bind _ _ _ h with ⟨l, hl, h2⟩
  have := mem_support_pure _ _ h2
  subst this
  exact mem_support_random_symbols L K l hl

theorem mem_support_replicateD {α : Type} :
    ∀ (n : ℕ) (d : Dist α) (l : List α),
      l ∈ Dist.support (replicateD n d) →
      l.length = n ∧ ∀ x ∈ l, x ∈ Dist.support d := by
  intro n
  induction n with
  | zero =>
      intro d l h
      have := mem_support_pure _ _ h
      subst this
      simp
  | succ k ih =>
      intro d l h
      rcases mem_support_bind _ _ _ h with ⟨x, hx, h2⟩
      rcases mem_support_bind _ _ _ h2 with ⟨xs, hxs, h3⟩
      have := mem_support_pure _ _ h3
      subst this
      rcases ih d xs hxs with ⟨hlen, hall⟩
      refine ⟨by simp [hlen], ?_⟩
      intro y hy
      rcases List.mem_cons.mp hy with h | h
      · rw [h]; exact hx
      · exact hall y h

theorem minRowLength_all :
    ∀ (xss : List (List ℕ)) (n : ℕ), xss ≠ [] →
      (∀ xs ∈ xss, xs.length = n) → minRowLength xss = n := by
  intro xss
  induction xss with
  | nil => intro n h _; exact absurd rfl h
  | cons v rest ih =>
      intro n _ hall
      cases rest with
      | nil => exact hall v (by simp)
      | cons w ws =>
          show min v.length (minRowLength (w :: ws)) = n
          rw [hall v (by simp),
            ih n (by simp) (fun u hu => hall u (List.mem_cons_of_mem v hu)),
            min_self]

theorem transpose_rect (xss : List (List ℕ)) (n B : ℕ)
    (hB : 0 < B) (hlen : xss.length = B) (hall : ∀ xs ∈ xss, xs.length = n) :
    (transpose xss).length = n ∧ ∀ row ∈ transpose xss, row.length = B := by
  have hne : xss ≠ [] := by
    intro h
    rw [h] at hlen
    simp at hlen
    omega
  constructor
  · rw [transpose, List.length_map, List.length_range,
      minRowLength_all xss n hne hall]
  · intro row hrow
    rcases List.mem_map.mp hrow with ⟨i, _, hi⟩
    rw [← hi, List.length_map, hlen]

theorem input_sequence_len (s : Sequence) :
    s.input_sequence.length = s.source_sequence.length + 2 := by
  simp [Sequence.input_sequence]

/-- C10: every batch that `train`'s sampler can produce consists of
`batch_size` sequences sharing one source length `L` from the configured
range (the single `randint` draw per batch), so the transposed
per-position symbol batches are rectangular — the transposed input has
`L + 2` rows and the transposed output `L + 1` rows, each row holding
exactly `batch_size` symbols, hence every batch element takes the same
number of INPUT_MODE and OUTPUT_MODE steps. -/
theorem sampled_batch_rectangular (lo hi K B : ℕ) (hB : 0 < B)
    (batch : List Sequence)
    (hb : batch ∈ Dist.support (sample_batch lo hi K B)) :
    ∃ L, lo ≤ L ∧ L ≤ hi ∧
      batch.length = B ∧
      (∀ s ∈ batch, s.source_sequence.length = L) ∧
      (transpose (batch.map Sequence.input_sequence)).length = L + 2 ∧
      (∀ row ∈ transpose (batch.map Sequence.input_sequence), row.length = B) ∧
      (transpose (batch.map Sequence.output_sequence)).length = L + 1 ∧
      (∀ row ∈ transpose (batch.map Sequence.output_sequence), row.length = B) := by
  rcases mem_support_bind _ _ _ hb with ⟨L, hL, h2⟩
  rcases mem_support_randint lo hi L hL with ⟨hlo, hhi⟩
  rcases mem_support_replicateD B _ batch h2 with ⟨hlen, hall⟩
  have hslen : ∀ s ∈ batch, s.source_sequence.length = L := fun s hs =>
    (mem_support_random_sequence L K s (hall s hs)).1
  have hinp := transpose_rect (batch.map Sequence.input_sequence) (L + 2) B hB
    (by rw [List.length_map, hlen])
    (by
      intro xs hxs
      rcases List.mem_map.mp hxs with ⟨s, hs, hxss⟩
      rw [← hxss, input_sequence_len, hslen s hs])
  have hout := transpose_rect (batch.map Sequence.output_sequence) (L + 1) B hB
    (by rw [List.length_map, hlen])
    (by
      intro xs hxs
      rcases List.mem_map.mp hxs with ⟨s, hs, hxss⟩
      rw [← hxss, output_sequence_len, hslen s hs])
  exact ⟨L, hlo, hhi, hlen, hslen, hinp.1, hinp.2, hout.1, hout.2⟩

/-- Witness for `sampled_batch_rectangular` at a concrete sampler
configuration and batch. -/
theorem sampled_batch_rectangular_witness :
    ∃ L, 1 ≤ L ∧ L ≤ 1 ∧
      ([Sequence.mk [3], Sequence.mk [3]]).length = 2 ∧
      (∀ s ∈ [Sequence.mk [3], Sequence.mk [3]], s.source_sequence.length = L) ∧
      (transpose ([Sequence.mk [3], Sequence.mk [3]].map Sequence.input_sequence)).length = L + 2 ∧
      (∀ row ∈ transpose ([Sequence.mk [3], Sequence.mk [3]].map Sequence.input_sequence),
        row.length = 2) ∧
      (transpose ([Sequence.mk [3], Sequence.mk [3]].map Sequence.output_sequence)).length = L + 1 ∧
      (∀ row ∈ transpose ([Sequence.mk [3], Sequence.mk [3]].map Sequence.output_sequence),
        row.length = 2) :=
  sampled_batch_rectangular 1 1 1 2 (by decide)
    [Sequence.mk [3], Sequence.mk [3]] (by decide)

theorem prob_pure {α : Type} (a : α) (p : α → Bool) :
    Dist.prob (Dist.pure a) p = if p a then 1 else 0 := by
  cases h : p a <;> simp [Dist.prob, Dist.pure, List.filter, h]

theorem prob_congr {α : Type} (d : Dist α) (p q : α → Bool)
    (h : ∀ a ∈ Dist.support d, p a = q a) :
    Dist.prob d p = Dist.prob d q := by
  unfold Dist.prob
  rw [List.filter_congr]
  intro x hx
  exact h x.1 (List.mem_map.mpr ⟨x, hx, rfl⟩)

theorem prob_false {α : Type} (d : Dist α) :
    Dist.prob d (fun _ => false) = 0 := by
  simp [Dist.prob]

theorem prob_of_support_false {α : Type} (d : Dist α) (p : α → Bool)
    (h : ∀ a ∈ Dist.support d, p a = false) : Dist.prob d p = 0 := by
  rw [prob_congr d p (fun _ => false) h, prob_false]

theorem prob_scale {α : Type} (q : ℚ) (p : α → Bool) :
    ∀ (l : List (α × ℚ)),
      (((l.map (fun x => (x.1, q * x.2))).filter (fun x => p x.1)).map Prod.snd).sum =
        q * ((l.filter (fun x => p x.1)).map Prod.snd).sum := by
  intro l
  induction l with
  | nil => simp
  | cons x rest ih =>
      cases hx : p x.1 <;>
        · simp only [List.map_cons, List.filter_cons, hx, Bool.false_eq_true,
            if_false, if_true, List.map_cons, List.sum_cons, ih]
          try ring

theorem prob_bind {α β : Type} (f : α → Dist β) (p : β → Bool) :
    ∀ (d : Dist α),
      Dist.prob (Dist.bind d f) p =
        (d.map (fun x => x.2 * Dist.prob (f x.1) p)).sum := by
  intro d
  induction d with
  | nil => rfl
  | cons x rest ih =>
      obtain ⟨a, q⟩ := x
      show Dist.prob (((f a).map (fun bq => (bq.1, q * bq.2))) ++ Dist.bind rest f) p = _
      unfold Dist.prob
      rw [List.filter_append, List.map_append, List.sum_append]
      have h1 := prob_scale q p (f a)
      unfold Dist.prob at ih
      rw [h1, ih]
      simp [Dist.prob]

theorem sum_weight_ite {α : Type} (p : α → Bool) :
    ∀ (d : Dist α),
      (d.map (fun x => x.2 * (if p x.1 then (1 : ℚ) else 0))).sum = Dist.prob d p := by
  intro d
  induction d with
  | nil => rfl
  | cons x rest ih =>
      cases hx : p x.1 <;>
        simp only [List.map_cons, List.sum_cons, hx, Bool.false_eq_true,
          if_false, if_true, mul_zero, mul_one, zero_add, ih, Dist.prob,
          List.filter_cons, List.map_cons, List.sum_cons]

theorem prob_bind_pure {α β : Type} (d : Dist α) (h : α → β) (p : β → Bool) :
    Dist.prob (Dist.bind d (fun a => Dist.pure (h a))) p =
      Dist.prob d (fun a => p (h a)) := by
  rw [prob_bind]
  rw [← sum_weight_ite (fun a => p (h a)) d]
  apply congrArg
  apply List.map_congr_left
  intro x _
  rw [prob_pure]

theorem prob_bind_uniform {α β : Type} (xs : List α) (f : α → Dist β) (p : β → Bool) :
    Dist.prob (Dist.bind (uniform xs) f) p =
      (xs.map (fun a => (1 / (xs.length : ℚ)) * Dist.prob (f a) p)).sum := by
  rw [prob_bind]
  unfold uniform
  rw [List.map_map]
  rfl

theorem sum_map_mul_const {α : Type} (c : ℚ) (f : α → ℚ) :
    ∀ (l : List α), (l.map (fun x => c * f x)).sum = c * (l.map f).sum := by
  intro l
  induction l with
  | nil => simp
  | cons x rest ih =>
      simp only [List.map_cons, List.sum_cons, ih]
      ring

theorem sum_map_ite_range (x : ℚ) :
    ∀ (K c₀ : ℕ), c₀ < K →
      ((List.range K).map (fun c => if c = c₀ then x else 0)).sum = x := by
  intro K
  induction K with
  | zero => intro c₀ h; omega
  | succ k ih =>
      intro c₀ h
      rw [List.range_succ, List.map_append, List.sum_append]
      by_cases hc : c₀ < k
      · rw [ih c₀ hc]
        simp [show ¬(k = c₀) by omega]
      · have hk : c₀ = k := by omega
        subst hk
        have hz : ((List.range c₀).map (fun c => if c = c₀ then x else 0)).sum = 0 := by
          apply List.sum_eq_zero
          intro y hy
          rcases List.mem_map.mp hy with ⟨c, hc', hcy⟩
          have := List.mem_range.mp hc'
          rw [← hcy, if_neg (by omega)]
        rw [hz]
        simp

theorem sum_map_ite_range' (x : ℚ) :
    ∀ (n lo c₀ : ℕ), lo ≤ c₀ → c₀ < lo + n →
      ((List.range' lo n).map (fun c => if c = c₀ then x else 0)).sum = x := by
  intro n
  induction n with
  | zero => intro lo c₀ h1 h2; omega
  | succ k ih =>
      intro lo c₀ h1 h2
      rw [List.range'_succ, List.map_cons, List.sum_cons]
      by_cases hc : lo = c₀
      · rw [if_pos hc]
        have hz : ((List.range' (lo + 1) k).map (fun c => if c = c₀ then x else 0)).sum = 0 := by
          apply List.sum_eq_zero
          intro y hy
          rcases List.mem_map.mp hy with ⟨c, hc', hcy⟩
          have := List.mem_range'_1.mp hc'
          rw [← hcy, if_neg (by omega)]
        rw [hz]
        simp
      · rw [if_neg hc, ih (lo + 1) c₀ (by omega) (by omega)]
        simp

theorem random_symbols_pointmass :
    ∀ (n K : ℕ) (w : List ℕ), w.length = n →
      (∀ x ∈ w, 3 ≤ x ∧ x < 3 + K) →
      Dist.prob (random_symbols n K) (fun l => decide (l = w)) =
        (1 / (K : ℚ)) ^ n := by
  intro n
  induction n with
  | zero =>
      intro K w hw _
      have : w = [] := List.eq_nil_of_length_eq_zero hw
      subst this
      simp [random_symbols, prob_pure]
  | succ k ih =>
      intro K w hw hall
      cases w with
      | nil => simp at hw
      | cons a w' =>
          have ha := hall a (by simp)
          have hK : 0 < K := by omega
          show Dist.prob (Dist.bind (randrange K) _) _ = _
          rw [show randrange K = uniform (List.range K) from rfl,
            prob_bind_uniform]
          have hinner : ∀ c : ℕ,
              Dist.prob
                (Dist.bind (random_symbols k K)
                  (fun rest => Dist.pure ((3 + c) :: rest)))
                (fun l => decide (l = a :: w')) =
              if 3 + c = a then (1 / (K : ℚ)) ^ k else 0 := by
            intro c
            rw [prob_bind_pure]
            by_cases hca : 3 + c = a
            · rw [if_pos hca,
                ← ih K w' (by simpa using hw)
                  (fun x hx => hall x (List.mem_cons_of_mem a hx))]
              apply prob_congr
              intro l _
              simp [hca]
            · rw [if_neg hca]
              apply prob_of_support_false
              intro l _
              simp [hca]
          have hmap : (List.range K).map
              (fun c => (1 / ((List.range K).length : ℚ)) *
                Dist.prob
                  (Dist.bind (random_symbols k K)
                    (fun rest => Dist.pure ((3 + c) :: rest)))
                  (fun l => decide (l = a :: w'))) =
              (List.range K).map
              (fun c => if c = a - 3 then (1 / (K : ℚ)) ^ (k + 1) else 0) := by
            apply List.map_congr_left
            intro c _
            rw [hinner c, List.length_range]
            by_cases hc : c = a - 3
            · rw [if_pos hc, if_pos (by omega), pow_succ]
              ring
            · rw [if_neg hc, if_neg (by omega), mul_zero]
          rw [hmap, sum_map_ite_range _ K (a - 3) (by omega)]

theorem random_sequence_pointmass (L K : ℕ) (s : Sequence)
    (h1 : s.source_sequence.length = L)
    (h2 : ∀ x ∈ s.source_sequence, 3 ≤ x ∧ x < 3 + K) :
    Dist.prob (random_sequence L K) (fun t => decide (t = s)) =
      (1 / (K : ℚ)) ^ L := by
  rw [random_sequence, prob_bind_pure,
    ← random_symbols_pointmass L K s.source_sequence h1 h2]
  apply prob_congr
  intro l _
  cases s
  simp [Sequence.mk.injEq]

theorem prod_map_const_eq_pow {α : Type} (c : ℚ) :
    ∀ (l : List α), (l.map (fun _ => c)).prod = c ^ l.length := by
  intro l
  induction l with
  | nil => simp
  | cons x rest ih => simp [ih, pow_succ]; ring

theorem replicateD_pointmass {α : Type} [DecidableEq α] (d : Dist α) :
    ∀ (ws : List α),
      Dist.prob (replicateD ws.length d) (fun l => decide (l = ws)) =
        (ws.map (fun w => Dist.prob d (fun x => decide (x = w)))).prod := by
  intro ws
  induction ws with
  | nil => simp [replicateD, prob_pure]
  | cons w ws' ih =>
      show Dist.prob (Dist.bind d _) _ = _
      rw [prob_bind]
      have hinner : ∀ a : α,
          Dist.prob
            (Dist.bind (replicateD ws'.length d)
              (fun xs => Dist.pure (a :: xs)))
            (fun l => decide (l = w :: ws')) =
          if decide (a = w) then
            (ws'.map (fun u => Dist.prob d (fun x => decide (x = u)))).prod
          else 0 := by
        intro a
        rw [prob_bind_pure]
        by_cases haw : a = w
        · rw [if_pos (by simp [haw]), ← ih]
          apply prob_congr
          intro l _
          simp [haw]
        · rw [if_neg (by simp [haw])]
          apply prob_of_support_false
          intro l _
          simp [haw]
      have hmap : d.map (fun x => x.2 *
            Dist.prob
              (Dist.bind (replicateD ws'.length d)
                (fun xs => Dist.pure (x.1 :: xs)))
              (fun l => decide (l = w :: ws'))) =
          d.map (fun x =>
            (ws'.map (fun u => Dist.prob d (fun y => decide (y = u)))).prod *
              (x.2 * (if decide (x.1 = w) then (1 : ℚ) else 0))) := by
        apply List.map_congr_left
        intro x _
        rw [hinner x.1]
        by_cases hxw : x.1 = w
        · rw [if_pos (by simp [hxw]), if_pos (by simp [hxw])]
          ring
        · rw [if_neg (by simp [hxw]), if_neg (by simp [hxw])]
          ring
      rw [hmap, sum_map_mul_const, sum_weight_ite (fun y => decide (y = w)) d]
      simp [mul_comm]

theorem sample_batch_pointmass (lo hi K L B : ℕ)
    (hlo : lo ≤ L) (hhi : L ≤ hi) (hB : 0 < B)
    (bs : List Sequence) (hlen : bs.length = B)
    (hall : ∀ s ∈ bs, s.source_sequence.length = L ∧
      ∀ x ∈ s.source_sequence, 3 ≤ x ∧ x < 3 + K) :
    Dist.prob (sample_batch lo hi K B) (fun b => decide (b = bs)) =
      (1 / ((hi + 1 - lo : ℕ) : ℚ)) * (1 / (K : ℚ)) ^ (L * B) := by
  · have hn : (List.range' lo (hi + 1 - lo)).length = hi + 1 - lo :=
      List.length_range' _ _ _
    rw [sample_batch, randint, prob_bind_uniform]
    have hinner : ∀ L' : ℕ,
        Dist.prob (replicateD B (random_sequence L' K))
          (fun b => decide (b = bs)) =
        if L' = L then ((1 / (K : ℚ)) ^ L) ^ B else 0 := by
      intro L'
      by_cases hLL : L' = L
      · subst hLL
        rw [if_pos rfl, ← hlen, replicateD_pointmass]
        have hconst : bs.map (fun w =>
              Dist.prob (random_sequence L' K) (fun x => decide (x = w))) =
            bs.map (fun _ => (1 / (K : ℚ)) ^ L') := by
          apply List.map_congr_left
          intro s hs
          exact random_sequence_pointmass L' K s (hall s hs).1 (hall s hs).2
        rw [hconst, prod_map_const_eq_pow, hlen]
      · rw [if_neg hLL]
        apply prob_of_support_false
        intro l hl
        rcases mem_support_replicateD B _ l hl with ⟨_, hlmem⟩
        apply decide_eq_false
        intro hlbs
        subst hlbs
        have hne : l ≠ [] := by
          intro h
          rw [h] at hlen
          simp at hlen
          omega
        obtain ⟨s₀, hs₀⟩ := List.exists_mem_of_ne_nil l hne
        have h1 := (mem_support_random_sequence L' K s₀ (hlmem s₀ hs₀)).1
        have h2 := (hall s₀ hs₀).1
        omega
    have hmap : (List.range' lo (hi + 1 - lo)).map (fun L' =>
          (1 / ((List.range' lo (hi + 1 - lo)).length : ℚ)) *
            Dist.prob (replicateD B (random_sequence L' K))
              (fun b => decide (b = bs))) =
        (List.range' lo (hi + 1 - lo)).map (fun L' =>
          if L' = L then
            (1 / ((hi + 1 - lo : ℕ) : ℚ)) * ((1 / (K : ℚ)) ^ L) ^ B
          else 0) := by
      apply List.map_congr_left
      intro L' _
      rw [hinner L', hn]
      by_cases hLL : L' = L
      · rw [if_pos hLL, if_pos hLL]
      · rw [if_neg hLL, if_neg hLL, mul_zero]
    rw [hmap, sum_map_ite_range' _ (hi + 1 - lo) lo L hlo (by omega), ← pow_mul]

theorem sample_batch_support_shared_length (lo hi K B : ℕ) :
    ∀ b ∈ Dist.support (sample_batch lo hi K B),
      ∃ L', lo ≤ L' ∧ L' ≤ hi ∧
        b.length = B ∧
        ∀ s ∈ b, s.source_sequence.length = L' ∧
          ∀ x ∈ s.source_sequence, 3 ≤ x ∧ x < 3 + K := by
  intro b hb
  rcases mem_support_bind _ _ _ hb with ⟨L', hL', h2⟩
  rcases mem_support_randint lo hi L' hL' with ⟨h1, h2'⟩
  rcases mem_support_replicateD B _ b h2 with ⟨hblen, hmem⟩
  exact ⟨L', h1, h2', hblen,
    fun s hs => mem_support_random_sequence L' K s (hmem s hs)⟩

/-- C4 (amended): per batch, one source length `L` is drawn uniformly
from the training range and shared by all `batch_size` sequences; given
that length the sequences are independent with symbols i.i.d. uniform on
the ordinary alphabet — every batch of `B` sequences of the common
length `L` with in-alphabet symbols has probability
`(1/(hi+1-lo)) * (1/K)^(L*B)`, and every producible batch has all its
sequences sharing one length from the range. -/
theorem sample_batch_shared_length_iid (lo hi K L B : ℕ)
    (hlo : lo ≤ L) (hhi : L ≤ hi) (hB : 0 < B)
    (bs : List Sequence) (hlen : bs.length = B)
    (hall : ∀ s ∈ bs, s.source_sequence.length = L ∧
      ∀ x ∈ s.source_sequence, 3 ≤ x ∧ x < 3 + K) :
    Dist.prob (sample_batch lo hi K B) (fun b => decide (b = bs)) =
      (1 / ((hi + 1 - lo : ℕ) : ℚ)) * (1 / (K : ℚ)) ^ (L * B) ∧
    ∀ b ∈ Dist.support (sample_batch lo hi K B),
      ∃ L', lo ≤ L' ∧ L' ≤ hi ∧ ∀ s ∈ b, s.source_sequence.length = L' := by
  refine ⟨sample_batch_pointmass lo hi K L B hlo hhi hB bs hlen hall, ?_⟩
  intro b hb
  rcases sample_batch_support_shared_length lo hi K B b hb with
    ⟨L', h1, h2, _, hall'⟩
  exact ⟨L', h1, h2, fun s hs => (hall' s hs).1⟩

/-- Witness for `sample_batch_shared_length_iid` at a concrete sampler
configuration and batch. -/
theorem sample_batch_shared_length_iid_witness :
    Dist.prob (sample_batch 0 1 1 1)
        (fun b => decide (b = [Sequence.mk [3]])) =
      (1 / ((1 + 1 - 0 : ℕ) : ℚ)) * (1 / ((1 : ℕ) : ℚ)) ^ (1 * 1) ∧
    ∀ b ∈ Dist.support (sample_batch 0 1 1 1),
      ∃ L', 0 ≤ L' ∧ L' ≤ 1 ∧ ∀ s ∈ b, s.source_sequence.length = L' :=
  sample_batch_shared_length_iid 0 1 1 1 1 (by decide) (by decide) (by decide)
    [Sequence.mk [3]] (by decide) (by decide)

theorem seq_singleton_three (s : Sequence)
    (h : s.source_sequence.length = 1 ∧
      ∀ x ∈ s.source_sequence, 3 ≤ x ∧ x < 3 + 1) :
    s = Sequence.mk [3] := by
  obtain ⟨l⟩ := s
  obtain ⟨hlen, hall⟩ := h
  cases l with
  | nil => simp at hlen
  | cons a t =>
      cases t with
      | cons b t2 => simp at hlen
      | nil =>
          have := hall a (by simp)
          have ha : a = 3 := by omega
          simp [ha]

theorem sample_batch_0112_support :
    ∀ b ∈ Dist.support (sample_batch 0 1 1 2),
      b = [Sequence.mk [], Sequence.mk []] ∨
      b = [Sequence.mk [3], Sequence.mk [3]] := by
  intro b hb
  rcases sample_batch_support_shared_length 0 1 1 2 b hb with
    ⟨L', _, hL1, hblen, hall⟩
  cases b with
  | nil => simp at hblen
  | cons s1 t =>
      cases t with
      | nil => simp at hblen
      | cons s2 t2 =>
          cases t2 with
          | cons s3 t3 => simp at hblen
          | nil =>
              have h1 := hall s1 (by simp)
              have h2 := hall s2 (by simp)
              have hl : L' = 0 ∨ L' = 1 := by omega
              rcases hl with rfl | rfl
              · left
                obtain ⟨l1⟩ := s1
                obtain ⟨l2⟩ := s2
                have e1 := List.eq_nil_of_length_eq_zero h1.1
                have e2 := List.eq_nil_of_length_eq_zero h2.1
                simp only at e1 e2
                rw [e1, e2]
              · right
                rw [seq_singleton_three s1 h1, seq_singleton_three s2 h2]

/-- C4 counterexample: with training length range `(0, 1)`, alphabet
size 1 and batch size 2, the code's sampler gives probability 0 to the
event "the first sequence has length 0 and the second has length 1",
while each of those two marginal events has probability 1/2 — so the
batch's sequences are not independent with per-sequence length draws, as
the claim states: an independent per-sequence uniform length draw would
give the joint event probability 1/4, not 0. -/
theorem sample_batch_not_independent :
    Dist.prob (sample_batch 0 1 1 2)
      (fun b => decide (b.getD 0 (Sequence.mk [3]) = Sequence.mk []) &&
                decide (b.getD 1 (Sequence.mk []) = Sequence.mk [3])) = 0 ∧
    Dist.prob (sample_batch 0 1 1 2)
      (fun b => decide (b.getD 0 (Sequence.mk [3]) = Sequence.mk [])) = 1 / 2 ∧
    Dist.prob (sample_batch 0 1 1 2)
      (fun b => decide (b.getD 1 (Sequence.mk []) = Sequence.mk [3])) = 1 / 2 ∧
    (0 : ℚ) ≠ (1 / 2) * (1 / 2) := by
  refine ⟨?_, ?_, ?_, by norm_num⟩
  · apply prob_of_support_false
    intro b hb
    rcases sample_batch_0112_support b hb with rfl | rfl <;> rfl
  · have hcongr : Dist.prob (sample_batch 0 1 1 2)
        (fun b => decide (b.getD 0 (Sequence.mk [3]) = Sequence.mk [])) =
        Dist.prob (sample_batch 0 1 1 2)
          (fun b => decide (b = [Sequence.mk [], Sequence.mk []])) := by
      apply prob_congr
      intro b hb
      rcases sample_batch_0112_support b hb with rfl | rfl <;> rfl
    rw [hcongr,
      sample_batch_pointmass 0 1 1 0 2 (by omega) (by omega) (by omega)
        [Sequence.mk [], Sequence.mk []] (by simp) (by simp)]
    norm_num
  · have hcongr : Dist.prob (sample_batch 0 1 1 2)
        (fun b => decide (b.getD 1 (Sequence.mk []) = Sequence.mk [3])) =
        Dist.prob (sample_batch 0 1 1 2)
          (fun b => decide (b = [Sequence.mk [3], Sequence.mk [3]])) := by
      apply prob_congr
      intro b hb
      rcases sample_batch_0112_support b hb with rfl | rfl <;> rfl
    rw [hcongr,
      sample_batch_pointmass 0 1 1 1 2 (by omega) (by omega) (by omega)
        [Sequence.mk [3], Sequence.mk [3]] (by simp) (by simp)]
    norm_num

theorem run_training_batches_error :
    ∀ (losses : List (Option ℚ)) (k i : ℕ) (acc : ℚ),
      k < losses.length →
      losses.getD k (some 0) = none →
      (∀ j < k, losses.getD j (some 0) ≠ none) →
      run_training_batches i acc losses = Except.error (i + k) := by
  intro losses
  induction losses with
  | nil => intro k i acc hk _ _; simp at hk
  | cons lv rest ih =>
      intro k i acc hk hnone hfin
      cases k with
      | zero =>
          have hlv : lv = none := by simpa using hnone
          subst hlv
          simp [run_training_batches]
      | succ k' =>
          have hlv : lv ≠ none := by
            have := hfin 0 (by omega)
            simpa using this
          obtain ⟨q, hq⟩ := Option.ne_none_iff_exists'.mp hlv
          subst hq
          show run_training_batches (i + 1) (acc + q) rest = _
          rw [ih k' (i + 1) (acc + q) (by simpa using hk)
            (by simpa using hnone)
            (by
              intro j hj
              have := hfin (j + 1) (by omega)
              simpa using this)]
          congr 1
          omega

/-- C8: if the loss of training batch `k` is non-finite (`none`) and the
earlier batches' losses are finite, the batch loop does not recover: it
aborts the run at batch `k` (returns the error) instead of continuing to
the subsequent batches. -/
theorem nonfinite_loss_aborts (losses : List (Option ℚ)) (k : ℕ)
    (hk : k < losses.length)
    (hnone : losses.getD k (some 0) = none)
    (hfin : ∀ j < k, losses.getD j (some 0) ≠ none) :
    run_training_batches 0 0 losses = Except.error k := by
  have h := run_training_batches_error losses k 0 0 hk hnone hfin
  simpa using h

/-- Witness for `nonfinite_loss_aborts`: a group whose second batch loss
is non-finite aborts at index 1 with the third batch never reached. -/
theorem nonfinite_loss_aborts_witness :
    run_training_batches 0 0 [some 1, none, some 2] = Except.error 1 :=
  nonfinite_loss_aborts [some 1, none, some 2] 1 (by decide) (by decide)
    (by decide)

/-- C9: with an output path configured and a succeeding write, the save
happens after training and before evaluation; with a failing write, the
error surfaces (the run ends with it) and evaluation never runs; with no
output path, no save is attempted. -/
theorem save_after_train_before_test (save : String → Except String Unit) :
    (∀ p, save p = Except.ok () →
      main_run (some p) save =
        ([RunEvent.trained, RunEvent.saved p, RunEvent.tested], none)) ∧
    (∀ p e, save p = Except.error e →
      (main_run (some p) save).2 = some e ∧
      RunEvent.tested ∉ (main_run (some p) save).1 ∧
      RunEvent.trained ∈ (main_run (some p) save).1) ∧
    (main_run none save).1 = [RunEvent.trained, RunEvent.tested] ∧
    (∀ p, RunEvent.saved p ∉ (main_run none save).1) := by
  refine ⟨?_, ?_, rfl, ?_⟩
  · intro p hp
    simp [main_run, hp]
  · intro p e hp
    refine ⟨by simp [main_run, hp], by simp [main_run, hp], by simp [main_run, hp]⟩
  · intro p
    simp [main_run]

/-- Witness for `save_after_train_before_test` at concrete save
operations and paths. -/
theorem save_after_train_before_test_witness :
    main_run (some "weights.bin") demoSaveOk =
      ([RunEvent.trained, RunEvent.saved "weights.bin", RunEvent.tested],
        none) ∧
    (main_run (some "weights.bin") demoSaveBad).2 = some "unwritable" ∧
    RunEvent.tested ∉ (main_run (some "weights.bin") demoSaveBad).1 :=
  ⟨(save_after_train_before_test demoSaveOk).1 "weights.bin" rfl,
   ((save_after_train_before_test demoSaveBad).2.1 "weights.bin" "unwritable"
      rfl).1,
   ((save_after_train_before_test demoSaveBad).2.1 "weights.bin" "unwritable"
      rfl).2.1⟩

/-- C3: in the training OUTPUT_MODE loop, from any state, the list of
per-step losses is: at step `k`, the batched negative log-likelihood of
the known target index batch of step `k` taken at the output of the
teacher-forced state (the fold of `next` over the known target index
batches of steps `< k` — never over any model prediction), and the state
after the loop is the teacher-forced fold of all the known target index
batches. -/
theorem train_teacher_forcing_spec {σ : Type} (m : Model σ)
    (nll : List ℚ → ℕ → ℚ) (st : σ) (output_sequence_batch : List (List ℕ)) :
    (train_output_loop m nll st output_sequence_batch).2 =
      (List.range output_sequence_batch.length).map (fun k =>
        pickneglogsoftmax_batch nll
          (m.output (teacher_forced_state m st (output_sequence_batch.take k)))
          ((output_sequence_batch.getD k []).map output_symbol_to_index)) ∧
    (train_output_loop m nll st output_sequence_batch).1 =
      teacher_forced_state m st output_sequence_batch :=
  ⟨train_output_loop_losses m nll output_sequence_batch st,
   train_output_loop_state m nll output_sequence_batch st⟩

/-- C5: for every iteration group (whose sampled batches are given as a
list of transposed input/output symbol batches), the reported average
loss equals the sum of the per-batch losses divided by
`batch_size * batch_group_size`, each per-batch loss is the double sum —
over output time steps and batch elements — of the per-symbol negative
log-likelihoods along the teacher-forced trajectory, and the average loss
is non-negative (given that the framework's negative-log-softmax scalar
is non-negative and outputs have the batch dimension `B`). -/
theorem average_loss_spec {σ : Type} (m : Model σ) (nll : List ℚ → ℕ → ℚ)
    (B : ℕ) (batches : List (List (List ℕ) × List (List ℕ)))
    (hnll : ∀ v i, 0 ≤ nll v i)
    (hout : ∀ st : σ, (m.output st).length = B)
    (hshape : ∀ b ∈ batches, ∀ tb ∈ b.2, tb.length = B) :
    average_loss m nll B batches =
      (batches.map (fun b => batch_loss m nll B b.1 b.2)).sum /
        ((B : ℚ) * (batches.length : ℚ)) ∧
    (∀ b ∈ batches, batch_loss m nll B b.1 b.2 =
      ((List.range b.2.length).map (fun k =>
        (pickneglogsoftmax_batch nll
          (m.output (teacher_forced_state m
            (train_input_loop m (m.initial_state B) b.1) (b.2.take k)))
          ((b.2.getD k []).map output_symbol_to_index)).sum)).sum) ∧
    0 ≤ average_loss m nll B batches := by
  refine ⟨?_, ?_, ?_⟩
  · rw [average_loss, batch_group_loss, foldl_add_sum, zero_add]
  · intro b hb
    rw [batch_loss, sum_batches,
      esum_sum_eq B _ ?_, train_output_loop_losses, List.map_map]
    · rfl
    · intro v hv
      rw [train_output_loop_losses] at hv
      rcases List.mem_map.mp hv with ⟨k, hk, hkv⟩
      rw [← hkv, pickneglogsoftmax_batch, List.length_zipWith, hout,
        List.length_map]
      have hkl : k < b.2.length := List.mem_range.mp hk
      have : (b.2.getD k []).length = B := by
        rw [List.getD_eq_getElem b.2 [] hkl]
        exact hshape b hb _ (List.getElem_mem hkl)
      rw [this, min_self]
  · rw [average_loss]
    apply div_nonneg
    · rw [batch_group_loss, foldl_add_sum, zero_add]
      apply List.sum_nonneg
      intro x hx
      rcases List.mem_map.mp hx with ⟨b, _, hbx⟩
      rw [← hbx]
      exact batch_loss_nonneg m nll hnll B b.1 b.2
    · positivity

/-- Witness for `average_loss_spec` at a concrete model and batch list. -/
theorem average_loss_spec_witness :
    0 ≤ average_loss demoModel demoNll 2 [([[0, 0]], [[2, 2]])] :=
  (average_loss_spec demoModel demoNll 2 [([[0, 0]], [[2, 2]])]
    (fun _ _ => zero_le_one) (fun _ => rfl) (by decide)).2.2

/-- C6: for every sequence `S` with source length `L ≥ 0`,
`output_sequence S` is the reversed source followed by the END marker, and
`output_sequence_length S = L + 1`. -/
theorem output_sequence_spec (S : Sequence) :
    S.output_sequence = S.source_sequence.reverse ++ [END_SYMBOL] ∧
    (S.output_sequence.dropLast = S.source_sequence.reverse ∧
      S.output_sequence.getLast? = some END_SYMBOL) ∧
    S.output_sequence_length = S.source_sequence.length + 1 := by
  refine ⟨rfl, ⟨?_, ?_⟩, rfl⟩
  · simp [Sequence.output_sequence]
  · simp [Sequence.output_sequence]

/-- C7: for every sequence `S`, `input_sequence S` is START, the source
symbols in order, then SEPARATOR; in particular the length-0 sequence
yields input `[START, SEPARATOR]` and output `[END]`. -/
theorem input_sequence_spec (S : Sequence) :
    S.input_sequence = [START_SYMBOL] ++ S.source_sequence ++ [SEPARATOR_SYMBOL] ∧
    (Sequence.mk []).input_sequence = [START_SYMBOL, SEPARATOR_SYMBOL] ∧
    (Sequence.mk []).output_sequence = [END_SYMBOL] := by
  exact ⟨rfl, rfl, rfl⟩

end StackLstm
